import Mathlib

/-!
Verification development for the tache-rs connection router and relay.

The Rust sources under `src/tache/src` are shallowly embedded below:
pure functions become Lean functions, byte buffers become `List Char`,
stateful poll loops become explicit state-passing step functions, and
fallible operations return `Except`/`Option`.  Rust `u16`/`u8` values are
`Nat` with explicit range checks where the source checks them.
-/

namespace Tache

/-- Decidable equality of `Except` results, used to evaluate the models
on concrete inputs. -/
instance {ε α : Type _} [DecidableEq ε] [DecidableEq α] : DecidableEq (Except ε α) :=
  fun a b =>
    match a, b with
    | .error e1, .error e2 =>
      if h : e1 = e2 then .isTrue (h ▸ rfl)
      else .isFalse (fun he => h (Except.error.inj he))
    | .ok x, .ok y =>
      if h : x = y then .isTrue (h ▸ rfl)
      else .isFalse (fun he => h (Except.ok.inj he))
    | .error _, .ok _ => .isFalse (fun he => Except.noConfusion he)
    | .ok _, .error _ => .isFalse (fun he => Except.noConfusion he)

/-! ## Generic list helpers (Rust `str::split`, prefix splitting) -/

/-- Model of Rust `str::split(sep)` over a character list: `"a:b"` gives
`["a","b"]`, `""` gives `[""]`, `":"` gives `["",""]`.  The result is
always non-empty. -/
def splitOnChar (sep : Char) : List Char → List (List Char)
  | [] => [[]]
  | c :: cs =>
    match splitOnChar sep cs with
    | [] => [[]]
    | g :: gs => if c = sep then [] :: g :: gs else (c :: g) :: gs

/-! ## Rule engine — `src/tache/src/rules/mod.rs`, `global.rs`, `direct.rs` -/

/-- Model of `std::net::IpAddr` as carried inside connection metadata and
socket addresses: a V4 address is four octets, a V6 address is the eight
16-bit groups after `::` expansion. -/
inductive IpAddr where
  | v4 (a b c d : Nat)
  | v6 (groups : List Nat)
deriving DecidableEq, Repr

/-- Model of `std::net::SocketAddr`: an IP address, a port, and (for V6)
a numeric scope id. -/
structure SockAddr where
  ip : IpAddr
  port : Nat
  scope : Nat := 0
deriving DecidableEq, Repr

/-- `rules/mod.rs` `ConnectionMeta`: per-connection classification input. -/
structure ConnectionMeta where
  udp : Bool
  host : List Char
  src_addr : Option SockAddr
  dst_addr : Option SockAddr

/-- `ConnectionMeta::is_host`: true exactly when `host` is non-empty. -/
def ConnectionMeta.is_host (cm : ConnectionMeta) : Bool :=
  !cm.host.isEmpty

/-- A `Box<dyn Rule>` trait object is exactly its `run` method: a function
from connection metadata to an optional outbound name. -/
abbrev RuleFn : Type := ConnectionMeta → Option (List Char)

/-- `rules/global.rs`: `impl Rule for Global` returns `Some("DIRECT")`
for every input. -/
def Global.run : RuleFn := fun _ => some "DIRECT".toList

/-- `rules/direct.rs`: `impl Rule for Direct` returns `Some("DIRECT")`
for every input. -/
def Direct.run : RuleFn := fun _ => some "DIRECT".toList

/-- `rules/mod.rs` `type MODE = Vec<Box<dyn Rule>>`. -/
abbrev MODE : Type := List RuleFn

/-- The error text produced by `rules/mod.rs::lookup` when no rule
matches (the source spells it `cant't find match rule`). -/
def noMatchMsg : List Char := "cant\x27t find match rule".toList

/-- `rules/mod.rs::lookup`: iterate the mode's rules in order, return
`Ok` of the first non-`None` result, else the no-match error. -/
def lookup : MODE → ConnectionMeta → Except (List Char) (List Char)
  | [], _ => .error noMatchMsg
  | r :: rs, cm =>
    match r cm with
    | some outbound => .ok outbound
    | none => lookup rs cm

/-- `rules/mod.rs::build_modes`: the built-in mode table — `GLOBAL` is
`[Global]`, `DIRECT` is `[Direct]`, and `RULE` is built empty (the
configured rule entries are never consulted).  The configuration argument
is ignored, as in the source. -/
def build_modes (_config : Unit) : List (List Char × MODE) :=
  [("GLOBAL".toList, [Global.run]),
   ("DIRECT".toList, [Direct.run]),
   ("RULE".toList, [])]

/-- HashMap-style lookup over the built mode table (first binding wins;
`build_modes` inserts distinct keys). -/
def modesGet : List (List Char × MODE) → List Char → Option MODE
  | [], _ => none
  | (k, m) :: rest, name => if k = name then some m else modesGet rest name

/-! ## Address model — `src/tache/src/utils.rs` -/

/-- `utils.rs` `Address`: either a literal socket address or a
domain-name-plus-port pair. -/
inductive Address where
  | socketAddr (sa : SockAddr)
  | domainName (name : List Char) (port : Nat)
deriving DecidableEq, Repr

/-- Decimal value of a digit list. -/
def digitsVal (s : List Char) : Nat :=
  s.foldl (fun a c => a * 10 + (c.toNat - 48)) 0

/-- Model of Rust `u16::from_str` as used for the port in
`utils.rs` `FromStr for Address`: an optional leading `+`, then one or
more decimal digits, value at most 65535. -/
def parse_u16 (s : List Char) : Option Nat :=
  let core := fun (t : List Char) =>
    if t ≠ [] ∧ t.all Char.isDigit ∧ digitsVal t ≤ 65535 then some (digitsVal t) else none
  match s with
  | '+' :: rest => core rest
  | _ => core s

/-- Model of one IPv4 octet in Rust `std::net` address parsing: one to
three decimal digits, no leading zero, value at most 255. -/
def parseOctet (s : List Char) : Option Nat :=
  if s ≠ [] ∧ s.length ≤ 3 ∧ s.all Char.isDigit ∧
     ¬(s.length > 1 ∧ s.head? = some '0') ∧ digitsVal s ≤ 255
  then some (digitsVal s) else none

/-- Model of Rust `Ipv4Addr::from_str`: four dot-separated octets. -/
def parseIpv4 (s : List Char) : Option IpAddr :=
  match splitOnChar '.' s with
  | [a, b, c, d] =>
    match parseOctet a, parseOctet b, parseOctet c, parseOctet d with
    | some x, some y, some z, some w => some (.v4 x y z w)
    | _, _, _, _ => none
  | _ => none

/-- Hexadecimal digit test for IPv6 groups. -/
def isHexDig (c : Char) : Bool :=
  c.isDigit || ('a' ≤ c && c ≤ 'f') || ('A' ≤ c && c ≤ 'F')

/-- Hexadecimal value of one digit. -/
def hexDigVal (c : Char) : Nat :=
  if c.isDigit then c.toNat - 48
  else if 'a' ≤ c && c ≤ 'f' then c.toNat - 87
  else c.toNat - 55

/-- Hexadecimal value of a digit list. -/
def hexVal (s : List Char) : Nat :=
  s.foldl (fun a c => a * 16 + hexDigVal c) 0

/-- Model of one IPv6 group: one to four hexadecimal digits. -/
def parseH16 (s : List Char) : Option Nat :=
  if s ≠ [] ∧ s.length ≤ 4 ∧ s.all isHexDig then some (hexVal s) else none

/-- Split a character list at the first `::` occurrence, if any. -/
def splitDoubleColon : List Char → Option (List Char × List Char)
  | [] => none
  | ':' :: ':' :: rest => some ([], rest)
  | c :: rest => (splitDoubleColon rest).map (fun p => (c :: p.1, p.2))

/-- Parse colon-separated IPv6 groups with no embedded IPv4 part. -/
def parseGroups (parts : List (List Char)) : Option (List Nat) :=
  match parts with
  | [] => some []
  | p :: rest =>
    match parseH16 p, parseGroups rest with
    | some g, some gs => some (g :: gs)
    | _, _ => none

/-- Parse colon-separated IPv6 groups where the final part may be an
embedded dotted IPv4 address (counting as two groups). -/
def parseGroupsV4 (parts : List (List Char)) : Option (List Nat) :=
  match parseGroups parts with
  | some gs => some gs
  | none =>
    match parts.getLast? with
    | none => none
    | some last =>
      match parseIpv4 last, parseGroups (parts.dropLast) with
      | some (.v4 a b c d), some gs => some (gs ++ [a * 256 + b, c * 256 + d])
      | _, _ => none

/-- Model of Rust `Ipv6Addr::from_str`: either eight plain groups, or a
single `::` with at most seven groups around it, expanded with zeros; an
embedded IPv4 address may close the group list. -/
def parseIpv6 (s : List Char) : Option (List Nat) :=
  match splitDoubleColon s with
  | none =>
    match parseGroupsV4 (splitOnChar ':' s) with
    | some gs => if gs.length = 8 then some gs else none
    | none => none
  | some (l, r) =>
    let lparts := if l = [] then [] else splitOnChar ':' l
    let rparts := if r = [] then [] else splitOnChar ':' r
    match parseGroups lparts, parseGroupsV4 rparts with
    | some gl, some gr =>
      if gl.length + gr.length ≤ 7 then
        some (gl ++ List.replicate (8 - gl.length - gr.length) 0 ++ gr)
      else none
    | _, _ => none

/-- Model of the numeric scope id accepted inside `[addr%scope]`. -/
def parseScopeId (s : List Char) : Option Nat :=
  if s ≠ [] ∧ s.all Char.isDigit ∧ digitsVal s ≤ 4294967295 then some (digitsVal s) else none

/-- Port in a literal socket address: one or more decimal digits, value
at most 65535 (no sign, unlike `u16::from_str`). -/
def parsePortDigits (s : List Char) : Option Nat :=
  if s ≠ [] ∧ s.all Char.isDigit ∧ digitsVal s ≤ 65535 then some (digitsVal s) else none

/-- Split a bracketed IPv6 socket address body at the first `]:`. -/
def splitRBColon : List Char → Option (List Char × List Char)
  | [] => none
  | ']' :: ':' :: rest => some ([], rest)
  | ']' :: _ => none
  | c :: rest => (splitRBColon rest).map (fun p => (c :: p.1, p.2))

/-- Parse the inside of the brackets: groups plus optional `%scope`. -/
def parseV6Inner (inner : List Char) : Option (List Nat × Nat) :=
  match splitOnChar '%' inner with
  | [a] => (parseIpv6 a).map (fun gs => (gs, 0))
  | [a, sc] =>
    match parseIpv6 a, parseScopeId sc with
    | some gs, some n => some (gs, n)
    | _, _ => none
  | _ => none

/-- Model of Rust `SocketAddr::from_str`: first the `ip4:port` form,
then the `[ip6]:port` form. -/
def parseSocketAddr (s : List Char) : Option SockAddr :=
  let v6 :=
    match s with
    | '[' :: rest =>
      match splitRBColon rest with
      | some (inner, portStr) =>
        match parseV6Inner inner, parsePortDigits portStr with
        | some (gs, sc), some p => some ⟨.v6 gs, p, sc⟩
        | _, _ => none
      | none => none
    | _ => none
  match splitOnChar ':' s with
  | [ip, port] =>
    match parseIpv4 ip, parsePortDigits port with
    | some addr, some p => some ⟨addr, p, 0⟩
    | _, _ => v6
  | _ => v6

/-- Parse-error value of `utils.rs` `FromStr for Address`. -/
inductive AddressError where
  | addressError
deriving DecidableEq, Repr

/-- `utils.rs` `impl FromStr for Address` (lines 143–161): first try a
literal socket address; on failure run `s.split(':')` and take the first
two fragments — the fragment after the FIRST colon must parse as a
`u16` port; everything after a second colon is ignored. -/
def Address.from_str (s : List Char) : Except AddressError Address :=
  match parseSocketAddr s with
  | some sa => .ok (.socketAddr sa)
  | none =>
    match splitOnChar ':' s with
    | dn :: port :: _ =>
      match parse_u16 port with
      | some p => .ok (.domainName dn p)
      | none => .error .addressError
    | _ => .error .addressError

/-- Split a character list at the LAST colon, if any. -/
def splitLastColon : List Char → Option (List Char × List Char)
  | [] => none
  | c :: rest =>
    match splitLastColon rest with
    | some (l, r) => some (c :: l, r)
    | none => if c = ':' then some ([], rest) else none

/-- Modelled from the spec: the claimed parse — try a literal socket
address, else split on the LAST colon and require the right part to be a
valid 16-bit port.  Stated only to compare with `Address.from_str`. -/
def Address.from_str_spec_last_colon (s : List Char) : Except AddressError Address :=
  match parseSocketAddr s with
  | some sa => .ok (.socketAddr sa)
  | none =>
    match splitLastColon s with
    | some (l, r) =>
      match parse_u16 r with
      | some p => .ok (.domainName l p)
      | none => .error .addressError
    | none => .error .addressError

/-- `utils.rs` `impl Display for Address` (lines 163–167) formats `self`
by formatting `self` again: `write!(f, "{}", self)`.  The recursion has
no base case, so the embedding carries fuel; the source diverges, which
the model reflects by returning `none` at fuel exhaustion — and, as
proved below, at every fuel. -/
def Address.displayFuel : Nat → Address → Option (List Char)
  | 0, _ => none
  | n + 1, a => Address.displayFuel n a

/-! ## HTTP/1.1 request decoder — `src/tache/src/protocol/http/http.rs`

`Http::decode` feeds the buffer to `httparse::Request::parse`, rejects any
version other than 1.1, builds the request with the authority taken from
the `Host` header (an `unwrap`, so a missing or invalid `Host` panics),
takes `src.split_off(amt)` — everything after the parsed head — as the
request body, and then *clears* the buffer.  `httparse` is an external
crate; the grammar below models its request-head parsing: a token method,
a URI, `HTTP/1.` plus a final digit `0`/`1`, CRLF, then up to 16
`name: value` header lines (a seventeenth header fails, as the source
passes a 16-slot header array), terminated by an empty CRLF line.
Running out of input anywhere yields `Partial`. -/

/-- Result of one sub-parser: a value plus unconsumed input, need more
input, or a malformed input. -/
inductive PR (α : Type) where
  | done (a : α) (rest : List Char)
  | more
  | bad
deriving DecidableEq, Repr

/-- Token characters allowed by `httparse` in methods and header names. -/
def isTokChar (c : Char) : Bool :=
  c.isAlphanum || "!#$%&*+-.^_|~".toList.contains c || c.toNat = 39 || c.toNat = 96

/-- Characters accepted in the request-target (printable ASCII without
the space that terminates it). -/
def isUriChar (c : Char) : Bool :=
  33 ≤ c.toNat && c.toNat ≤ 126

/-- Characters accepted in a header value (no CR or LF; tab allowed). -/
def isValChar (c : Char) : Bool :=
  c = '\t' || 32 ≤ c.toNat

/-- Greedily read characters of class `valid` until the `stop`
character; the token must be non-empty. -/
def pTokGo (valid : Char → Bool) (stop : Char) (acc : List Char) :
    List Char → PR (List Char)
  | [] => .more
  | c :: cs =>
    if c = stop then (if acc.isEmpty then .bad else .done acc.reverse cs)
    else if valid c then pTokGo valid stop (c :: acc) cs
    else .bad

/-- Token up to a `stop` character. -/
def pTok (valid : Char → Bool) (stop : Char) (s : List Char) : PR (List Char) :=
  pTokGo valid stop [] s

/-- Literal `HTTP/` as the wire renderer writes it. -/
def httpSlash : List Char := ['H', 'T', 'T', 'P', '/']

/-- Literal `HTTP/1.` as the parser requires it. -/
def httpSlashOneDot : List Char := ['H', 'T', 'T', 'P', '/', '1', '.']

/-- Expect the literal character sequence `l`. -/
def pLit : List Char → List Char → PR Unit
  | [], s => .done () s
  | _ :: _, [] => .more
  | l :: ls, c :: cs => if c = l then pLit ls cs else .bad

/-- Collect a header value until CRLF. -/
def pValGo (acc : List Char) : List Char → PR (List Char)
  | [] => .more
  | c :: cs =>
    if c = '\r' then
      match cs with
      | [] => .more
      | c2 :: cs2 => if c2 = '\n' then .done acc.reverse cs2 else .bad
    else if isValChar c then pValGo (c :: acc) cs else .bad

/-- Header value: skip leading spaces and tabs, then collect to CRLF. -/
def pValSkip : List Char → PR (List Char)
  | [] => .more
  | c :: cs => if c = ' ' || c = '\t' then pValSkip cs else pValGo [] (c :: cs)

/-- Header value parser (whitespace skip plus collection). -/
def pValue (s : List Char) : PR (List Char) :=
  pValSkip s

/-- Parse up to `n` remaining `name: value` header lines, ending at the
empty CRLF line; one more header than `n` is a parse failure
(`httparse` `TooManyHeaders` with the 16-slot array). -/
def pHeaders : Nat → List Char → PR (List (List Char × List Char))
  | n, s =>
    match s with
    | [] => .more
    | c :: cs =>
      if c = '\r' then
        match cs with
        | [] => .more
        | c2 :: cs2 => if c2 = '\n' then .done [] cs2 else .bad
      else
        match n with
        | 0 => .bad
        | n' + 1 =>
          match pTok isTokChar ':' (c :: cs) with
          | .more => .more
          | .bad => .bad
          | .done name r1 =>
            match pValue r1 with
            | .more => .more
            | .bad => .bad
            | .done v r2 =>
              match pHeaders n' r2 with
              | .done hs r3 => .done ((name, v) :: hs) r3
              | x => x

/-- Parsed request head, as `httparse` reports it. -/
structure HReq where
  method : List Char
  path : List Char
  minor : Nat
  headers : List (List Char × List Char)
deriving DecidableEq, Repr

/-- Outcome of `httparse::Request::parse`: a complete head together with
the unconsumed remainder of the buffer, a partial head, or a parse
failure. -/
inductive HStatus where
  | complete (r : HReq) (rest : List Char)
  | incomplete
  | failed
deriving DecidableEq, Repr

/-- Model of `httparse::Request::parse` on the buffer: request line,
`HTTP/1.` and a final version digit (`0` or `1` — anything else is a
parse failure), CRLF, then at most 16 headers and the empty line.  The
`rest` of a complete head is exactly the buffer minus the head bytes
(`amt` in the source). -/
def httparseReq (s : List Char) : HStatus :=
  match pTok isTokChar ' ' s with
  | .more => .incomplete
  | .bad => .failed
  | .done m r1 =>
    match pTok isUriChar ' ' r1 with
    | .more => .incomplete
    | .bad => .failed
    | .done p r2 =>
      match pLit httpSlashOneDot r2 with
      | .more => .incomplete
      | .bad => .failed
      | .done _ r3 =>
        match r3 with
        | [] => .incomplete
        | d :: r4 =>
          match (if d = '1' then some 1 else if d = '0' then some 0 else none : Option Nat) with
          | none => .failed
          | some minor =>
            match pLit ['\r', '\n'] r4 with
            | .more => .incomplete
            | .bad => .failed
            | .done _ r5 =>
              match pHeaders 16 r5 with
              | .more => .incomplete
              | .bad => .failed
              | .done hs r6 => .complete ⟨m, p, minor, hs⟩ r6

/-- Lower-case a header name, as the `http` crate's `HeaderMap` does. -/
def lowerStr (s : List Char) : List Char :=
  s.map Char.toLower

/-- First header named `host` (case-insensitively), as
`headers_ref().get("host")` returns. -/
def findHost : List (List Char × List Char) → Option (List Char)
  | [] => none
  | (n, v) :: rest => if lowerStr n = "host".toList then some v else findHost rest

/-- Characters the `http` crate accepts in a URI authority; the
`Uri::builder().authority(..)...unwrap()` in the source panics when the
`Host` value is not a valid authority. -/
def isAuthChar (c : Char) : Bool :=
  c.isAlphanum || "-._~!$&*+,;=:@[]%()".toList.contains c

/-- Validity of the `Host` value as a URI authority. -/
def authorityOk (hv : List Char) : Bool :=
  !hv.isEmpty && hv.all isAuthChar

/-- The request value `Http::decode` produces: head fields, the
authority copied from the `Host` header, and the body — which the source
sets to `src.split_off(amt)`, i.e. every byte after the head. -/
structure DecodedRequest where
  method : List Char
  path : List Char
  minor : Nat
  headers : List (List Char × List Char)
  authority : List Char
  body : List Char
deriving DecidableEq, Repr

/-- Outcome of `Http::decode`: `ok req buf` is `Ok(req)` together with
the buffer contents after the call (the source ends with `src.clear()`,
so a decoded request always leaves an empty buffer); `ioErr` is the
`io::Error` path; `crash` is the `unwrap` panic on a missing or invalid
`Host` header. -/
inductive HttpDecodeResult where
  | ok (req : Option DecodedRequest) (buf : List Char)
  | ioErr
  | crash
deriving DecidableEq, Repr

/-- `protocol/http/http.rs` `impl Decoder for Http`, `decode`
(lines 71–113). -/
def Http.decode (src : List Char) : HttpDecodeResult :=
  match httparseReq src with
  | .failed => .ioErr
  | .incomplete => .ok none src
  | .complete r rest =>
    if r.minor ≠ 1 then .ioErr
    else
      match findHost r.headers with
      | none => .crash
      | some hv =>
        if authorityOk hv then
          .ok (some ⟨r.method, r.path, r.minor, r.headers, hv, rest⟩) []
        else .crash

/-- Description of a request head used to quantify over well-formed
requests: the wire form is produced by `renderHead`. -/
structure HeadDesc where
  method : List Char
  path : List Char
  headers : List (List Char × List Char)
deriving DecidableEq, Repr

/-- Wire form of one header line, `name:value` followed by CRLF. -/
def renderHeader (h : List Char × List Char) : List Char :=
  h.1 ++ ':' :: h.2 ++ ['\r', '\n']

/-- Wire form of a header block. -/
def renderHeaders (hs : List (List Char × List Char)) : List Char :=
  hs.foldr (fun h acc => renderHeader h ++ acc) []

/-- Wire form of a head with an arbitrary version text `v` after
`HTTP/`. -/
def renderHeadV (d : HeadDesc) (v : List Char) : List Char :=
  d.method ++ ' ' :: d.path ++ ' ' :: httpSlash ++ v ++
    '\r' :: '\n' :: renderHeaders d.headers ++ ['\r', '\n']

/-- Wire form of an HTTP/1.1 head. -/
def renderHead (d : HeadDesc) : List Char :=
  renderHeadV d "1.1".toList

/-- Absence of leading whitespace that the value parser would skip. -/
def noLeadingWs : List Char → Bool
  | [] => true
  | c :: _ => !(c = ' ' || c = '\t')

/-- Well-formedness of one header for the decoder: token name, value
free of CR/LF that does not start with skippable whitespace. -/
def wfHeader (h : List Char × List Char) : Bool :=
  !h.1.isEmpty && h.1.all isTokChar && h.2.all isValChar && noLeadingWs h.2

/-- Well-formed head: token method, non-empty URI, at most 16
well-formed headers, and a `Host` header whose value is a valid
authority. -/
def wfHead (d : HeadDesc) : Bool :=
  !d.method.isEmpty && d.method.all isTokChar &&
  !d.path.isEmpty && d.path.all isUriChar &&
  d.headers.all wfHeader && d.headers.length ≤ 16 &&
  (match findHost d.headers with
   | some hv => authorityOk hv
   | none => false)

/-- Version text constraint: no CR or LF inside the version field. -/
def noCRLF (v : List Char) : Bool :=
  v.all (fun c => !(c = '\r' || c = '\n'))

/-! ## HTTP dispatcher session — `src/tache/src/protocol/http/service.rs`

`HttpServiceHandlerResponse` holds the per-connection session state.  Its
single timer slot `ka_timer: Option<Delay>` is reused for all three timer
purposes; which purpose the armed timer serves is determined by the flag
set (`SHUTDOWN` → shutdown grace, else `STARTED` → keep-alive, else slow
request).  `poll_keepalive` (lines 355–428) is transcribed below;
instants are `Nat`, `Delay::poll` is ready when `now` has reached the
deadline.  `send_response` in the slow-request branch is modelled by its
effect on the session state used here: the write buffer becomes
non-empty.  The file's read/dispatch path references fields that no type
in the repository defines (`messages`, `state`, `payload`, …); the
session poll below models the timer handling and the shutdown branch,
which are the parts the claims address, and reports entry into the
read phase abstractly. -/

/-- Bit set `Flags` of `service.rs` (lines 23–33) as booleans. -/
structure SFlags where
  started : Bool
  keepalive : Bool
  polled : Bool
  shutdown : Bool
  readDisconnect : Bool
  writeDisconnect : Bool
  upgrade : Bool
deriving DecidableEq, Repr

/-- The three timer purposes of the spec. -/
inductive TimerKind where
  | slowRequest
  | keepAlive
  | shutdownGrace
deriving DecidableEq, Repr

/-- A pending `Delay` with its deadline. -/
structure HDelay where
  deadline : Nat
deriving DecidableEq, Repr

/-- Dispatch errors relevant to the timer logic. -/
inductive DispatchError where
  | disconnectTimeout
  | unknown
deriving DecidableEq, Repr

/-- Timer-related parts of `ServiceConfig`: the shutdown-grace duration
(`client_disconnect_timer`) and the keep-alive duration
(`keep_alive_expire`), each `None` when disabled. -/
structure ServiceCfg where
  clientDisconnect : Option Nat
  keepAliveDur : Option Nat
deriving DecidableEq, Repr

/-- Session state of `HttpServiceHandlerResponse` (lines 179–189)
restricted to the fields `poll_keepalive` and the shutdown branch of
`poll` read or write. -/
structure HState where
  flags : SFlags
  kaExpire : Nat
  kaTimer : Option HDelay
  stateIsEmpty : Bool
  writeBufEmpty : Bool
  hasPayload : Bool
deriving DecidableEq, Repr

/-- Kinds of timer currently armed: the single `ka_timer` slot holds at
most one `Delay`, whose purpose is read off the flag set. -/
def armedKinds (s : HState) : List TimerKind :=
  match s.kaTimer with
  | none => []
  | some _ =>
    [if s.flags.shutdown then .shutdownGrace
     else if s.flags.started then .keepAlive
     else .slowRequest]

/-- Body of `poll_keepalive` once a timer is known to be armed (the
`match self.ka_timer.as_mut().unwrap().poll()` part). -/
def pollTimer (cfg : ServiceCfg) (now : Nat) (s : HState) (t : HDelay) :
    Except DispatchError HState :=
  if t.deadline ≤ now then
    -- Async::Ready: if we get a timeout during shutdown, drop the connection
    if s.flags.shutdown then
      .error .disconnectTimeout
    else if s.kaExpire ≤ t.deadline then
      if s.stateIsEmpty ∧ s.writeBufEmpty then
        if s.flags.started then
          -- keep-alive timeout: enter shutdown, arm the grace timer if configured
          match cfg.clientDisconnect with
          | some dur =>
            .ok { s with flags := { s.flags with shutdown := true },
                         kaTimer := some ⟨now + dur⟩ }
          | none =>
            .ok { s with flags := { s.flags with shutdown := true, writeDisconnect := true } }
        else
          -- slow-request timeout: 408 into the write buffer, then shut down
          .ok { s with flags := { s.flags with started := true, shutdown := true },
                       writeBufEmpty := false,
                       stateIsEmpty := true }
      else
        match cfg.keepAliveDur with
        | some ka => .ok { s with kaTimer := some ⟨now + ka⟩ }
        | none => .ok s
    else
      .ok { s with kaTimer := some ⟨s.kaExpire⟩ }
  else
    .ok s

/-- `poll_keepalive` (lines 355–428): with no timer armed, arm the
shutdown-grace timer when shutting down (or mark the read side gone when
no grace period is configured); with a timer armed, handle its expiry. -/
def poll_keepalive (cfg : ServiceCfg) (now : Nat) (s : HState) :
    Except DispatchError HState :=
  match s.kaTimer with
  | none =>
    if s.flags.shutdown then
      match cfg.clientDisconnect with
      | some dur =>
        let s' := { s with kaTimer := some ⟨now + dur⟩ }
        pollTimer cfg now s' ⟨now + dur⟩
      | none =>
        .ok { s with flags := { s.flags with readDisconnect := true },
                     hasPayload := false }
    else .ok s
  | some t => pollTimer cfg now s t

/-- Outcome of one `Future::poll` of the session (lines 441–524):
fatal error, clean completion, still pending, or entry into the
read/dispatch phase (not modelled further). -/
inductive SessionPoll where
  | fatal (e : DispatchError)
  | closed
  | pending (s : HState)
  | reading (s : HState)
deriving DecidableEq, Repr

/-- One scheduling turn of the session: `poll_keepalive` first — its
error aborts the poll — then the `SHUTDOWN` branch (flush the write
buffer, then half-close), else the read phase.  `ioWritable` tells
whether flushing empties the write buffer this turn, `shutReady`
whether `io.shutdown()` completes this turn. -/
def sessionPoll (cfg : ServiceCfg) (now : Nat) (ioWritable shutReady : Bool)
    (s : HState) : SessionPoll :=
  match poll_keepalive cfg now s with
  | .error e => .fatal e
  | .ok s1 =>
    if s1.flags.shutdown then
      if s1.flags.writeDisconnect then .closed
      else
        let s2 := if ioWritable then { s1 with writeBufEmpty := true } else s1
        if !s2.writeBufEmpty then .pending s2
        else if shutReady then .closed else .pending s2
    else .reading s1

/-! ## Relay — `src/tache/src/local.rs`, `single_run_http` (lines 118–128)

The relay races `io::copy(inbound → outbound)` against
`io::copy(outbound → inbound)` with `select`, and the task ends as soon
as either copy completes, dropping — and thereby closing — both
transports exactly once.  A direction is modelled by the list of read
events its source will produce; a copy future completes at the first
`eof` or `ioErr` event. -/

/-- One read event seen by a directional copy. -/
inductive CopyEv where
  | data (n : Nat)
  | eof
  | ioErr
deriving DecidableEq, Repr

/-- Events that complete `io::copy`. -/
def CopyEv.terminal : CopyEv → Bool
  | .data _ => false
  | _ => true

/-- Number of polls after which a copy direction completes: the index of
the first terminal event, `none` when the source never ends. -/
def firstStop : List CopyEv → Option Nat
  | [] => none
  | e :: es => if e.terminal then some 0 else (firstStop es).map (· + 1)

/-- One poll of a copy future over its remaining events. -/
inductive PollCopy where
  | ready (ok : Bool)
  | notReady (rest : List CopyEv)
deriving DecidableEq, Repr

/-- Poll a copy direction: a data chunk is copied and the future stays
pending; `eof` or an I/O error completes it; an idle open source stays
pending. -/
def pollCopy : List CopyEv → PollCopy
  | [] => .notReady []
  | .data _ :: es => .notReady es
  | .eof :: _ => .ready true
  | .ioErr :: _ => .ready false

/-- Result of the relay race: which direction finished, whether it ended
in EOF or error, the events each direction never consumed, and how often
each transport is closed when the task drops them. -/
structure RelayResult where
  leftFinished : Bool
  ok : Bool
  leftUnconsumed : List CopyEv
  rightUnconsumed : List CopyEv
  inboundCloses : Nat
  outboundCloses : Nat
deriving DecidableEq, Repr

/-- The `select` race of the two copies, fuelled by the number of
scheduling rounds: each round polls the left copy then the right copy,
and the first completion ends the relay; falling out of scope then
closes each of the two transports once. -/
def selectCopy : Nat → List CopyEv → List CopyEv → Option RelayResult
  | 0, _, _ => none
  | fuel + 1, l, r =>
    match pollCopy l with
    | .ready ok => some ⟨true, ok, l, r, 1, 1⟩
    | .notReady l' =>
      match pollCopy r with
      | .ready ok => some ⟨false, ok, l', r, 1, 1⟩
      | .notReady r' => selectCopy fuel l' r'

/-! ## Orchestrator and outbound registry — `src/tache/src/local.rs::run`
(lines 162–293)

`run` first builds the `proxies` map — each `ProxyConfig::Direct { name }`
entry does `proxies.insert(name, Direct::new(name))`, a plain
`HashMap::insert` that replaces any existing binding and never fails —
then builds the modes, then collects one listener future per resolved
inbound address, and finally awaits `select_all` over them: whichever
listener future completes first, `run` logs it and returns
`Err("server exited unexpectedly")`. -/

/-- An outbound implementation stored in the registry
(`outbound::Direct::new(name)` is the only kind `run` constructs). -/
inductive OutboundImpl where
  | directImpl (name : List Char)
deriving DecidableEq, Repr

/-- The `proxies` registry: a map from outbound name to implementation,
modelled as an association list with at most one binding per key. -/
abbrev Registry : Type := List (List Char × OutboundImpl)

/-- Map lookup (`proxies.get(name)`). -/
def regLookup : Registry → List Char → Option OutboundImpl
  | [], _ => none
  | (k, v) :: rest, name => if k = name then some v else regLookup rest name

/-- Replacement write of `HashMap::insert`: an existing binding for the
key is overwritten, otherwise the binding is appended. -/
def insertReplace : Registry → List Char → OutboundImpl → Registry
  | [], k, v => [(k, v)]
  | (k', v') :: rest, k, v =>
    if k' = k then (k, v) :: rest else (k', v') :: insertReplace rest k v

/-- `HashMap::insert` as called at `local.rs` lines 209–214: returns the
displaced value (if any) and the updated map; there is no failure
path. -/
def hashInsert (reg : Registry) (k : List Char) (v : OutboundImpl) :
    Option OutboundImpl × Registry :=
  (regLookup reg k, insertReplace reg k v)

/-- Registry error of the spec's `register` contract. -/
inductive RegError where
  | duplicateName
deriving DecidableEq, Repr

/-- Modelled from the spec: `register(name, implementation)` "fails if
`name` already present".  No function in the source errors on a
duplicate name; this definition follows the spec's words, to be compared
with `hashInsert`. -/
def registerSpec (reg : Registry) (k : List Char) (v : OutboundImpl) :
    Except RegError Registry :=
  if (regLookup reg k).isSome then .error .duplicateName
  else .ok ((k, v) :: reg)

/-- Proxy configuration entries as `local.rs::run` matches them; only
the `Direct` arm touches the registry. -/
inductive ProxyConfigL where
  | shadowsocks
  | vmess
  | socks5
  | http
  | direct (name : List Char)
deriving DecidableEq, Repr

/-- The registry-building loop at the top of `local.rs::run`. -/
def setupProxies : List ProxyConfigL → Registry → Registry
  | [], reg => reg
  | .direct name :: rest, reg =>
    setupProxies rest (hashInsert reg name (.directImpl name)).2
  | _ :: rest, reg => setupProxies rest reg

/-- Completion value of one listener future (`Ok(())` or `Err(e)`). -/
inductive LRes where
  | lok
  | lerr
deriving DecidableEq, Repr

/-- A listener future modelled by the round in which it completes and
its completion value. -/
abbrev Listener : Type := Nat × LRes

/-- First listener in the list already completed at round `t`
(`select_all` readiness scan). -/
def findReady (t : Nat) : List Listener → Option LRes
  | [] => none
  | f :: fs => if f.1 ≤ t then some f.2 else findReady t fs

/-- `select_all` over the listener futures, fuelled by scheduling
rounds: completes at the first round in which some listener has
completed, and reports that round. -/
def selectAllRun (fuel round : Nat) (fs : List Listener) : Option (LRes × Nat) :=
  match fuel with
  | 0 => none
  | fuel' + 1 =>
    match findReady round fs with
    | some res => some (res, round)
    | none => selectAllRun fuel' (round + 1) fs

/-- Error text `local.rs::run` returns after `select_all` completes. -/
def runErrMsg : List Char := "server exited unexpectedly".toList

/-- Tail of `local.rs::run` (lines 287–292, identical in
`engine/mod.rs::run` lines 369–371): await `select_all` over the
listener futures, then — whatever the completed listener returned —
return the fatal error. -/
def orchestratorRun (fuel : Nat) (fs : List Listener) :
    Option (Except (List Char) Unit × Nat) :=
  (selectAllRun fuel 0 fs).map (fun p => (.error runErrMsg, p.2))

/-! ## Theorems -/

theorem lookup_error_iff (mode : MODE) (cm : ConnectionMeta) :
    lookup mode cm = .error noMatchMsg ↔ ∀ r ∈ mode, r cm = none := by
  induction mode with
  | nil => simp [lookup]
  | cons r rs ih =>
    cases h : r cm with
    | some o => simp [lookup, h]
    | none => simp [lookup, h, ih]

theorem lookup_ok_iff (mode : MODE) (cm : ConnectionMeta) (out : List Char) :
    lookup mode cm = .ok out ↔
      ∃ pre r suf, mode = pre ++ r :: suf ∧ r cm = some out ∧
        ∀ r' ∈ pre, r' cm = none := by
  induction mode with
  | nil =>
    constructor
    · intro h; simp [lookup] at h
    · rintro ⟨pre, r, suf, hmode, -, -⟩
      exact absurd hmode (by simp)
  | cons r rs ih =>
    cases h : r cm with
    | some o =>
      constructor
      · intro hl
        simp only [lookup, h] at hl
        refine ⟨[], r, rs, rfl, ?_, by simp⟩
        rw [h]
        exact congrArg _ (by injection hl)
      · rintro ⟨pre, r', suf, hmode, hr', hpre⟩
        cases pre with
        | nil =>
          simp only [List.nil_append, List.cons.injEq] at hmode
          obtain ⟨h1, h2⟩ := hmode
          simp only [lookup, h]
          rw [h1] at h
          rw [h] at hr'
          injection hr' with hr''
          rw [hr'']
        | cons p pre' =>
          simp only [List.cons_append, List.cons.injEq] at hmode
          obtain ⟨h1, -⟩ := hmode
          have hp := hpre p (by simp)
          rw [← h1] at hp
          rw [hp] at h
          cases h
    | none =>
      have hstep : lookup (r :: rs) cm = lookup rs cm := by simp [lookup, h]
      rw [hstep, ih]
      constructor
      · rintro ⟨pre, r', suf, hmode, hr', hpre⟩
        refine ⟨r :: pre, r', suf, by simp [hmode], hr', ?_⟩
        intro r'' hr''
        rcases List.mem_cons.mp hr'' with h1 | h1
        · rw [h1]; exact h
        · exact hpre r'' h1
      · rintro ⟨pre, r', suf, hmode, hr', hpre⟩
        cases pre with
        | nil =>
          simp only [List.nil_append, List.cons.injEq] at hmode
          obtain ⟨h1, -⟩ := hmode
          rw [h1] at h
          rw [h] at hr'
          cases hr'
        | cons p pre' =>
          simp only [List.cons_append, List.cons.injEq] at hmode
          obtain ⟨-, h2⟩ := hmode
          exact ⟨pre', r', suf, h2, hr', fun r'' hm => hpre r'' (List.mem_cons_of_mem p hm)⟩

/-- C1: rule-engine lookup returns `Ok` of the outbound name produced by
the first rule in list order whose evaluation is non-empty, and returns
the no-match error exactly when every rule in the list returns empty; in
particular, lookup on the empty rule list always returns the error. -/
theorem lookup_first_match :
    (∀ (mode : MODE) (cm : ConnectionMeta),
       lookup mode cm = .error noMatchMsg ↔ ∀ r ∈ mode, r cm = none) ∧
    (∀ (mode : MODE) (cm : ConnectionMeta) (out : List Char),
       lookup mode cm = .ok out ↔
         ∃ pre r suf, mode = pre ++ r :: suf ∧ r cm = some out ∧
           ∀ r' ∈ pre, r' cm = none) ∧
    (∀ cm : ConnectionMeta, lookup [] cm = .error noMatchMsg) :=
  ⟨lookup_error_iff, lookup_ok_iff, fun _ => rfl⟩

theorem lookup_first_match_witness :
    lookup [Global.run] ⟨false, [], none, none⟩ = .ok "DIRECT".toList :=
  (lookup_first_match.2.1 [Global.run] ⟨false, [], none, none⟩ "DIRECT".toList).mpr
    ⟨[], Global.run, [], rfl, rfl, by simp⟩

/-- C10: the `Global` rule and the `Direct` rule both answer
`Some("DIRECT")` on every `ConnectionMeta`, so the built-in `GLOBAL` and
`DIRECT` modes of `build_modes` are extensionally equal: evaluating
either always yields the outbound name `DIRECT`. -/
theorem global_direct_equivalent :
    (∀ cm : ConnectionMeta,
       Global.run cm = some "DIRECT".toList ∧ Direct.run cm = some "DIRECT".toList) ∧
    modesGet (build_modes ()) "GLOBAL".toList = some [Global.run] ∧
    modesGet (build_modes ()) "DIRECT".toList = some [Direct.run] ∧
    (∀ cm : ConnectionMeta,
       lookup [Global.run] cm = .ok "DIRECT".toList ∧
       lookup [Direct.run] cm = .ok "DIRECT".toList ∧
       lookup [Global.run] cm = lookup [Direct.run] cm) :=
  ⟨fun _ => ⟨rfl, rfl⟩, rfl, rfl, fun _ => ⟨rfl, rfl, rfl⟩⟩

theorem splitOnChar_ne_nil (sep : Char) (s : List Char) : splitOnChar sep s ≠ [] := by
  induction s with
  | nil => simp [splitOnChar]
  | cons c cs ih =>
    simp only [splitOnChar]
    cases h : splitOnChar sep cs with
    | nil => simp
    | cons g gs =>
      by_cases hc : c = sep <;> simp [hc]

theorem splitOnChar_not_mem {sep : Char} {s : List Char} (h : sep ∉ s) :
    splitOnChar sep s = [s] := by
  induction s with
  | nil => rfl
  | cons c cs ih =>
    have hc : c ≠ sep := fun he => h (he ▸ List.mem_cons_self c cs)
    have hcs : sep ∉ cs := fun hm => h (List.mem_cons_of_mem c hm)
    simp only [splitOnChar, ih hcs]
    simp [hc]

theorem splitOnChar_append {sep : Char} {d : List Char} (t : List Char) (h : sep ∉ d) :
    splitOnChar sep (d ++ sep :: t) = d :: splitOnChar sep t := by
  induction d with
  | nil =>
    simp only [List.nil_append, splitOnChar]
    cases hs : splitOnChar sep t with
    | nil => exact absurd hs (splitOnChar_ne_nil sep t)
    | cons g gs => simp
  | cons c d' ih =>
    have hc : c ≠ sep := fun he => h (he ▸ List.mem_cons_self c d')
    have hd' : sep ∉ d' := fun hm => h (List.mem_cons_of_mem c hm)
    simp only [List.cons_append, splitOnChar, List.append_eq]
    rw [ih hd']
    simp [hc]

/-- C7 (corrected): `Address::from_str` first tries a literal socket
address; on failure it runs `split(':')` and uses the fragment after the
FIRST colon as the port (ignoring anything after a second colon), not
the last colon as the spec claims; with no colon at all it fails. -/
theorem address_from_str_first_colon :
    (∀ (s : List Char) (sa : SockAddr), parseSocketAddr s = some sa →
       Address.from_str s = .ok (.socketAddr sa)) ∧
    (∀ s : List Char, parseSocketAddr s = none → ':' ∉ s →
       Address.from_str s = .error .addressError) ∧
    (∀ d p : List Char, parseSocketAddr (d ++ ':' :: p) = none → ':' ∉ d → ':' ∉ p →
       Address.from_str (d ++ ':' :: p) =
         (match parse_u16 p with
          | some port => .ok (.domainName d port)
          | none => .error .addressError)) ∧
    (∀ d p extra : List Char,
       parseSocketAddr (d ++ ':' :: (p ++ ':' :: extra)) = none → ':' ∉ d → ':' ∉ p →
       Address.from_str (d ++ ':' :: (p ++ ':' :: extra)) =
         (match parse_u16 p with
          | some port => .ok (.domainName d port)
          | none => .error .addressError)) := by
  refine ⟨?_, ?_, ?_, ?_⟩
  · intro s sa h
    simp [Address.from_str, h]
  · intro s h hc
    simp [Address.from_str, h, splitOnChar_not_mem hc]
  · intro d p h hd hp
    simp only [Address.from_str, h]
    rw [splitOnChar_append p hd, splitOnChar_not_mem hp]
  · intro d p extra h hd hp
    simp only [Address.from_str, h]
    rw [splitOnChar_append (p ++ ':' :: extra) hd, splitOnChar_append extra hp]

theorem address_from_str_witness :
    Address.from_str ("example.com".toList ++ ':' :: "80".toList) =
      .ok (.domainName "example.com".toList 80) :=
  address_from_str_first_colon.2.2.1 "example.com".toList "80".toList
    (by decide) (by decide) (by decide)

/-- C7 counterexample: on `"a:1:x"` the code parses `DomainName("a", 1)`
(first-colon split, trailing `":x"` ignored), while the claimed
last-colon split would fail because `"x"` is not a port. -/
theorem address_parse_cex :
    Address.from_str "a:1:x".toList = .ok (.domainName "a".toList 1) ∧
    Address.from_str_spec_last_colon "a:1:x".toList = .error .addressError := by
  decide

/-- C8 (code bug): `Display for Address` formats `self` in terms of
itself with no base case, so converting any `Address` back to text never
produces a string — the parse-then-stringify round trip cannot complete
for any address, at any recursion depth. -/
theorem address_display_diverges :
    ∀ (n : Nat) (a : Address), Address.displayFuel n a = none := by
  intro n
  induction n with
  | zero => intro a; rfl
  | succ n ih => intro a; exact ih a

theorem regLookup_insertReplace_self (reg : Registry) (k : List Char) (v : OutboundImpl) :
    regLookup (insertReplace reg k v) k = some v := by
  induction reg with
  | nil => simp [insertReplace, regLookup]
  | cons e rest ih =>
    obtain ⟨k', v'⟩ := e
    simp only [insertReplace]
    by_cases h : k' = k
    · simp [h, regLookup]
    · simp [h, regLookup, ih]

theorem regLookup_insertReplace_other (reg : Registry) (k : List Char) (v : OutboundImpl)
    (k' : List Char) (h : k' ≠ k) :
    regLookup (insertReplace reg k v) k' = regLookup reg k' := by
  induction reg with
  | nil => simp [insertReplace, regLookup, Ne.symm h]
  | cons e rest ih =>
    obtain ⟨k0, v0⟩ := e
    simp only [insertReplace]
    by_cases h0 : k0 = k
    · subst h0
      simp [regLookup, Ne.symm h]
    · simp only [if_neg h0, regLookup]
      by_cases h1 : k0 = k' <;> simp [h1, ih]

/-- C9 (corrected): registering an outbound under a name already present
does not fail — `HashMap::insert` replaces the stored implementation,
returns the displaced one, and leaves every other name's binding
unchanged; registration still happens only in the startup loop of
`run`. -/
theorem register_replaces :
    ∀ (reg : Registry) (k : List Char) (v old : OutboundImpl) (k' : List Char),
      regLookup reg k = some old → k' ≠ k →
      hashInsert reg k v = (some old, insertReplace reg k v) ∧
      regLookup (insertReplace reg k v) k = some v ∧
      regLookup (insertReplace reg k v) k' = regLookup reg k' := by
  intro reg k v old k' h hk
  exact ⟨by simp [hashInsert, h], regLookup_insertReplace_self reg k v,
         regLookup_insertReplace_other reg k v k' hk⟩

theorem register_replaces_witness :
    hashInsert [("D".toList, OutboundImpl.directImpl "D".toList)] "D".toList
        (OutboundImpl.directImpl "E".toList)
      = (some (OutboundImpl.directImpl "D".toList),
         insertReplace [("D".toList, OutboundImpl.directImpl "D".toList)] "D".toList
           (OutboundImpl.directImpl "E".toList)) ∧
    regLookup (insertReplace [("D".toList, OutboundImpl.directImpl "D".toList)] "D".toList
        (OutboundImpl.directImpl "E".toList)) "D".toList
      = some (OutboundImpl.directImpl "E".toList) ∧
    regLookup (insertReplace [("D".toList, OutboundImpl.directImpl "D".toList)] "D".toList
        (OutboundImpl.directImpl "E".toList)) "X".toList
      = regLookup [("D".toList, OutboundImpl.directImpl "D".toList)] "X".toList :=
  register_replaces _ _ _ _ "X".toList (by decide) (by decide)

/-- C9 counterexample: inserting under the already-present name `D`
succeeds — it returns the displaced implementation rather than an error
— and the startup loop accepts a configuration with a duplicate `Direct`
name, while the spec's `register` contract would reject it. -/
theorem register_duplicate_cex :
    hashInsert [("D".toList, OutboundImpl.directImpl "D".toList)] "D".toList
        (OutboundImpl.directImpl "D".toList)
      = (some (OutboundImpl.directImpl "D".toList),
         [("D".toList, OutboundImpl.directImpl "D".toList)]) ∧
    registerSpec [("D".toList, OutboundImpl.directImpl "D".toList)] "D".toList
        (OutboundImpl.directImpl "D".toList) = .error .duplicateName ∧
    setupProxies [ProxyConfigL.direct "D".toList, ProxyConfigL.direct "D".toList] []
      = [("D".toList, OutboundImpl.directImpl "D".toList)] := by
  decide

/-- C2: the session owns a single timer slot, so at most one of the
three timer kinds is armed at any instant; and whenever the armed timer
has expired while the `SHUTDOWN` flag is set, `poll_keepalive` — and
with it the whole session poll — aborts fatally with
`DisconnectTimeout`, producing no successor state that could rearm a
timer or retry. -/
theorem timer_exclusive_shutdown_fatal :
    (∀ s : HState, (armedKinds s).length ≤ 1) ∧
    (∀ (cfg : ServiceCfg) (now : Nat) (ioW shutReady : Bool) (s : HState) (t : HDelay),
       s.kaTimer = some t → s.flags.shutdown = true → t.deadline ≤ now →
       poll_keepalive cfg now s = .error .disconnectTimeout ∧
       sessionPoll cfg now ioW shutReady s = .fatal .disconnectTimeout) := by
  constructor
  · intro s
    cases h : s.kaTimer <;> simp [armedKinds, h]
  · intro cfg now ioW shutReady s t ht hsd hdl
    have h1 : poll_keepalive cfg now s = .error .disconnectTimeout := by
      simp [poll_keepalive, ht, pollTimer, hdl, hsd]
    exact ⟨h1, by simp [sessionPoll, h1]⟩

theorem timer_exclusive_witness :
    poll_keepalive ⟨none, none⟩ 5
        ⟨⟨true, false, false, true, false, false, false⟩, 0, some ⟨3⟩, true, true, false⟩
      = .error .disconnectTimeout ∧
    sessionPoll ⟨none, none⟩ 5 false false
        ⟨⟨true, false, false, true, false, false, false⟩, 0, some ⟨3⟩, true, true, false⟩
      = .fatal .disconnectTimeout :=
  timer_exclusive_shutdown_fatal.2 ⟨none, none⟩ 5 false false
    ⟨⟨true, false, false, true, false, false, false⟩, 0, some ⟨3⟩, true, true, false⟩
    ⟨3⟩ rfl rfl (by decide)

theorem firstStop_zero {l : List CopyEv} (h : firstStop l = some 0) :
    ∃ ok, pollCopy l = .ready ok := by
  cases l with
  | nil => simp [firstStop] at h
  | cons e es =>
    cases e with
    | data n => simp [firstStop, CopyEv.terminal] at h
    | eof => exact ⟨true, rfl⟩
    | ioErr => exact ⟨false, rfl⟩

theorem firstStop_succ {l : List CopyEv} {i : Nat} (h : firstStop l = some (i + 1)) :
    ∃ l', pollCopy l = .notReady l' ∧ firstStop l' = some i := by
  cases l with
  | nil => simp [firstStop] at h
  | cons e es =>
    cases e with
    | data n =>
      refine ⟨es, rfl, ?_⟩
      have heq : firstStop (CopyEv.data n :: es) = (firstStop es).map (· + 1) := by
        simp [firstStop, CopyEv.terminal]
      rw [heq] at h
      cases hes : firstStop es with
      | none => rw [hes] at h; simp at h
      | some k =>
        rw [hes] at h
        simp only [Option.map_some'] at h
        injection h with h'
        exact congrArg some (by omega)
    | eof => simp [firstStop, CopyEv.terminal] at h
    | ioErr => simp [firstStop, CopyEv.terminal] at h

theorem firstStop_none_step {l : List CopyEv} (h : firstStop l = none) :
    ∃ l', pollCopy l = .notReady l' ∧ firstStop l' = none := by
  cases l with
  | nil => exact ⟨[], rfl, rfl⟩
  | cons e es =>
    cases e with
    | data n =>
      simp [firstStop, CopyEv.terminal] at h
      exact ⟨es, rfl, by simp [h]⟩
    | eof => simp [firstStop, CopyEv.terminal] at h
    | ioErr => simp [firstStop, CopyEv.terminal] at h

theorem selectCopy_left (i : Nat) :
    ∀ (l r : List CopyEv), firstStop l = some i → ∀ fuel, i + 1 ≤ fuel →
      (selectCopy fuel l r).map (fun res => (res.inboundCloses, res.outboundCloses))
        = some (1, 1) := by
  induction i with
  | zero =>
    intro l r h fuel hf
    obtain ⟨ok, hp⟩ := firstStop_zero h
    cases fuel with
    | zero => omega
    | succ f => simp [selectCopy, hp]
  | succ i ih =>
    intro l r h fuel hf
    obtain ⟨l', hp, hl'⟩ := firstStop_succ h
    cases fuel with
    | zero => omega
    | succ f =>
      cases hr : pollCopy r with
      | ready ok => simp [selectCopy, hp, hr]
      | notReady r' =>
        simp only [selectCopy, hp, hr]
        exact ih l' r' hl' f (by omega)

theorem selectCopy_right (j : Nat) :
    ∀ (l r : List CopyEv), firstStop l = none → firstStop r = some j →
      ∀ fuel, j + 1 ≤ fuel →
      (selectCopy fuel l r).map
          (fun res => (res.leftFinished, res.inboundCloses, res.outboundCloses))
        = some (false, 1, 1) := by
  induction j with
  | zero =>
    intro l r hl hr fuel hf
    obtain ⟨l', hpl, -⟩ := firstStop_none_step hl
    obtain ⟨ok, hpr⟩ := firstStop_zero hr
    cases fuel with
    | zero => omega
    | succ f => simp [selectCopy, hpl, hpr]
  | succ j ih =>
    intro l r hl hr fuel hf
    obtain ⟨l', hpl, hl'⟩ := firstStop_none_step hl
    obtain ⟨r', hpr, hr'⟩ := firstStop_succ hr
    cases fuel with
    | zero => omega
    | succ f =>
      simp only [selectCopy, hpl, hpr]
      exact ih l' r' hl' hr' f (by omega)

theorem selectCopy_min (i : Nat) :
    ∀ (j : Nat) (l r : List CopyEv), firstStop l = some i → firstStop r = some j →
      (selectCopy (min i j + 1) l r).map
          (fun res => (res.inboundCloses, res.outboundCloses))
        = some (1, 1) := by
  induction i with
  | zero =>
    intro j l r hl hr
    obtain ⟨ok, hp⟩ := firstStop_zero hl
    simp [selectCopy, hp]
  | succ i ih =>
    intro j l r hl hr
    obtain ⟨l', hpl, hl'⟩ := firstStop_succ hl
    cases j with
    | zero =>
      obtain ⟨ok, hpr⟩ := firstStop_zero hr
      simp [selectCopy, hpl, hpr]
    | succ j =>
      obtain ⟨r', hpr, hr'⟩ := firstStop_succ hr
      have hmin : min (i + 1) (j + 1) = min i j + 1 := by omega
      rw [hmin]
      simp only [selectCopy, hpl, hpr]
      exact ih j l' r' hl' hr'

/-- C5: the relay race ends as soon as either directional copy reaches a
terminal read event (EOF or I/O error) — with enough scheduling rounds
for that direction alone, and regardless of whether the other direction
ever finishes — and when both finish it ends at the earlier of the two;
on termination each transport is closed exactly once. -/
theorem relay_stops_on_first_eof :
    (∀ (l r : List CopyEv) (i : Nat), firstStop l = some i →
       ∀ fuel, i + 1 ≤ fuel →
       (selectCopy fuel l r).map (fun res => (res.inboundCloses, res.outboundCloses))
         = some (1, 1)) ∧
    (∀ (l r : List CopyEv) (j : Nat), firstStop l = none → firstStop r = some j →
       ∀ fuel, j + 1 ≤ fuel →
       (selectCopy fuel l r).map
           (fun res => (res.leftFinished, res.inboundCloses, res.outboundCloses))
         = some (false, 1, 1)) ∧
    (∀ (l r : List CopyEv) (i j : Nat), firstStop l = some i → firstStop r = some j →
       (selectCopy (min i j + 1) l r).map
           (fun res => (res.inboundCloses, res.outboundCloses))
         = some (1, 1)) :=
  ⟨fun l r i h => selectCopy_left i l r h,
   fun l r j hl hr => selectCopy_right j l r hl hr,
   fun l r i j hl hr => selectCopy_min i j l r hl hr⟩

theorem relay_stops_witness :
    (selectCopy 2 [CopyEv.data 3, CopyEv.eof] []).map
        (fun res => (res.inboundCloses, res.outboundCloses))
      = some (1, 1) :=
  relay_stops_on_first_eof.1 [CopyEv.data 3, CopyEv.eof] [] 1 (by decide) 2 (by omega)

theorem findReady_mem :
    ∀ (fs : List Listener) (t tt : Nat) (r : LRes),
      (tt, r) ∈ fs → tt ≤ t → (findReady t fs).isSome := by
  intro fs t tt r hmem hle
  induction fs with
  | nil => simp at hmem
  | cons f fs ih =>
    by_cases hf : f.1 ≤ t
    · simp [findReady, hf]
    · rcases List.mem_cons.mp hmem with h1 | h1
      · rw [← h1] at hf; exact absurd hle hf
      · simp only [findReady, if_neg hf]
        exact ih h1

theorem selectAllRun_stops :
    ∀ (fuel round : Nat) (fs : List Listener) (tt : Nat) (r : LRes),
      (tt, r) ∈ fs → tt ≤ round + fuel →
      match selectAllRun (fuel + 1) round fs with
      | some p => p.2 ≤ round + fuel
      | none => False := by
  intro fuel
  induction fuel with
  | zero =>
    intro round fs tt r hmem hle
    have hs := findReady_mem fs round tt r hmem (by omega)
    obtain ⟨res, hres⟩ := Option.isSome_iff_exists.mp hs
    simp [selectAllRun, hres]
  | succ fuel ih =>
    intro round fs tt r hmem hle
    cases hfr : findReady round fs with
    | some res => simp [selectAllRun, hfr]
    | none =>
      have h := ih (round + 1) fs tt r hmem (by omega)
      have heq : round + 1 + fuel = round + (fuel + 1) := by omega
      rw [heq] at h
      simpa [selectAllRun, hfr] using h

/-- C6: whenever any one of the listener futures completes — with `Ok`
or with `Err` alike — the orchestrator's `select_all` race has already
finished by that round, and `run` returns the fatal
`server exited unexpectedly` error instead of keeping the remaining
listeners running. -/
theorem orchestrator_stops_on_first_exit :
    ∀ (fs : List Listener) (t : Nat) (res : LRes), (t, res) ∈ fs →
      match orchestratorRun (t + 1) fs with
      | some p => p.1 = .error runErrMsg ∧ p.2 ≤ t
      | none => False := by
  intro fs t res hmem
  have h := selectAllRun_stops t 0 fs t res hmem (by omega)
  unfold orchestratorRun
  cases hs : selectAllRun (t + 1) 0 fs with
  | none => rw [hs] at h; exact h
  | some p =>
    rw [hs] at h
    exact ⟨rfl, by simpa using h⟩

theorem orchestrator_stops_witness :
    match orchestratorRun (2 + 1) [(5, LRes.lerr), (2, LRes.lok)] with
    | some p => p.1 = .error runErrMsg ∧ p.2 ≤ 2
    | none => False :=
  orchestrator_stops_on_first_exit [(5, LRes.lerr), (2, LRes.lok)] 2 LRes.lok (by decide)

theorem pTokGo_complete {valid : Char → Bool} {stop : Char} (hstop : valid stop = false) :
    ∀ (tok acc t : List Char), tok.all valid = true →
      pTokGo valid stop acc (tok ++ stop :: t) =
        (if acc.reverse ++ tok = [] then .bad else .done (acc.reverse ++ tok) t) := by
  intro tok
  induction tok with
  | nil =>
    intro acc t htok
    simp only [List.nil_append, pTokGo, if_pos rfl, List.append_nil]
    by_cases ha : acc = []
    · simp [ha]
    · simp [ha, List.isEmpty_iff, mt List.reverse_eq_nil_iff.mp ha]
  | cons c tok' ih =>
    intro acc t htok
    simp only [List.all_cons, Bool.and_eq_true] at htok
    obtain ⟨hc, htok'⟩ := htok
    have hcne : c ≠ stop := by
      intro he; rw [he, hstop] at hc; cases hc
    simp only [List.cons_append, pTokGo, List.append_eq]
    rw [if_neg hcne, if_pos hc, ih (c :: acc) t htok']
    simp

theorem pTok_complete {valid : Char → Bool} {stop : Char} {tok : List Char}
    (hstop : valid stop = false) (htok : tok.all valid = true) (hne : tok ≠ [])
    (t : List Char) :
    pTok valid stop (tok ++ stop :: t) = .done tok t := by
  unfold pTok
  rw [pTokGo_complete hstop tok [] t htok]
  simp [hne]

theorem pTokGo_all_more {valid : Char → Bool} {stop : Char} (hstop : valid stop = false) :
    ∀ (p acc : List Char), p.all valid = true → pTokGo valid stop acc p = .more := by
  intro p
  induction p with
  | nil => intro acc _; rfl
  | cons c p' ih =>
    intro acc h
    simp only [List.all_cons, Bool.and_eq_true] at h
    obtain ⟨hc, hp'⟩ := h
    have hcne : c ≠ stop := by
      intro he; rw [he, hstop] at hc; cases hc
    simp only [pTokGo, List.append_eq]
    rw [if_neg hcne, if_pos hc]
    exact ih (c :: acc) hp'

theorem pTok_all_more {valid : Char → Bool} {stop : Char} {p : List Char}
    (hstop : valid stop = false) (hp : p.all valid = true) :
    pTok valid stop p = .more :=
  pTokGo_all_more hstop p [] hp

theorem pLit_complete (lit t : List Char) : pLit lit (lit ++ t) = .done () t := by
  induction lit with
  | nil => rfl
  | cons l ls ih => simp [pLit, ih]

theorem pLit_prefix_more : ∀ (p q : List Char), q ≠ [] → pLit (p ++ q) p = .more := by
  intro p
  induction p with
  | nil =>
    intro q hq
    cases q with
    | nil => exact absurd rfl hq
    | cons c cs => rfl
  | cons c p' ih =>
    intro q hq
    simp only [List.cons_append, pLit, if_pos rfl]
    exact ih q hq

theorem pValGo_complete :
    ∀ (v acc t : List Char), v.all isValChar = true →
      pValGo acc (v ++ '\r' :: '\n' :: t) = .done (acc.reverse ++ v) t := by
  intro v
  induction v with
  | nil =>
    intro acc t _
    simp [pValGo]
  | cons c v' ih =>
    intro acc t hv
    simp only [List.all_cons, Bool.and_eq_true] at hv
    obtain ⟨hc, hv'⟩ := hv
    have hcr : c ≠ '\r' := by
      intro he; rw [he] at hc; cases hc
    simp only [List.cons_append, pValGo, List.append_eq]
    rw [if_neg hcr, if_pos hc, ih (c :: acc) t hv']
    simp

theorem pValGo_all_more :
    ∀ (p acc : List Char), p.all isValChar = true → pValGo acc p = .more := by
  intro p
  induction p with
  | nil => intro acc _; rfl
  | cons c p' ih =>
    intro acc h
    simp only [List.all_cons, Bool.and_eq_true] at h
    obtain ⟨hc, hp'⟩ := h
    have hcr : c ≠ '\r' := by
      intro he; rw [he] at hc; cases hc
    simp only [pValGo, List.append_eq]
    rw [if_neg hcr, if_pos hc]
    exact ih (c :: acc) hp'

theorem pValGo_cr_more :
    ∀ (v acc : List Char), v.all isValChar = true → pValGo acc (v ++ ['\r']) = .more := by
  intro v
  induction v with
  | nil => intro acc _; rfl
  | cons c v' ih =>
    intro acc h
    simp only [List.all_cons, Bool.and_eq_true] at h
    obtain ⟨hc, hv'⟩ := h
    have hcr : c ≠ '\r' := by
      intro he; rw [he] at hc; cases hc
    simp only [List.cons_append, pValGo, List.append_eq]
    rw [if_neg hcr, if_pos hc]
    exact ih (c :: acc) hv'

theorem pValue_complete {v : List Char} (hv : v.all isValChar = true)
    (hw : noLeadingWs v = true) (t : List Char) :
    pValue (v ++ '\r' :: '\n' :: t) = .done v t := by
  cases v with
  | nil =>
    simp [pValue, pValSkip, pValGo]
  | cons c v' =>
    have hw' : (c = ' ' || c = '\t') = false := by
      simpa [noLeadingWs] using hw
    simp only [pValue, List.cons_append, pValSkip, hw', Bool.false_eq_true, if_false]
    have h := pValGo_complete (c :: v') [] t hv
    simpa using h

theorem pValue_all_more {v : List Char} (hv : v.all isValChar = true)
    (hw : noLeadingWs v = true) : pValue v = .more := by
  cases v with
  | nil => rfl
  | cons c v' =>
    have hw' : (c = ' ' || c = '\t') = false := by simpa [noLeadingWs] using hw
    simp only [pValue, pValSkip, hw', Bool.false_eq_true, if_false]
    exact pValGo_all_more (c :: v') [] hv

theorem pValue_cr_more {v : List Char} (hv : v.all isValChar = true)
    (hw : noLeadingWs v = true) : pValue (v ++ ['\r']) = .more := by
  cases v with
  | nil => rfl
  | cons c v' =>
    have hw' : (c = ' ' || c = '\t') = false := by simpa [noLeadingWs] using hw
    simp only [List.cons_append, pValue, pValSkip, hw', Bool.false_eq_true, if_false]
    have h := pValGo_cr_more (c :: v') [] hv
    simpa using h

theorem pValue_prefix_more {v : List Char} (hv : v.all isValChar = true)
    (hw : noLeadingWs v = true) :
    ∀ p q, p ++ q = v ++ ['\r', '\n'] → q ≠ [] → pValue p = .more := by
  intro p q hpq hq
  rcases List.append_eq_append_iff.mp hpq with ⟨w, hw1, hw2⟩ | ⟨w, hw1, hw2⟩
  · -- p is a front part of v
    have hptok : p.all isValChar = true := by
      rw [hw1, List.all_append, Bool.and_eq_true] at hv
      exact hv.1
    have hplw : noLeadingWs p = true := by
      cases p with
      | nil => rfl
      | cons c p' =>
        rw [hw1] at hw
        simpa [noLeadingWs] using hw
    exact pValue_all_more hptok hplw
  · -- p covers all of v and possibly part of the CRLF
    cases w with
    | nil =>
      rw [List.append_nil] at hw1
      rw [hw1]
      exact pValue_all_more hv hw
    | cons e w2 =>
      have he : e = '\r' ∧ w2 ++ q = ['\n'] := by
        rw [List.cons_append] at hw2
        exact ⟨(List.cons.inj hw2).1.symm, ((List.cons.inj hw2).2).symm⟩
      cases w2 with
      | nil =>
        rw [hw1, he.1]
        exact pValue_cr_more hv hw
      | cons e2 w3 =>
        have he2 : w3 ++ q = [] := by
          have := he.2
          rw [List.cons_append] at this
          exact (List.cons.inj this).2
        exact absurd (List.append_eq_nil.mp he2).2 hq

theorem pHeaders_nil_more (n : Nat) : pHeaders n [] = .more := by
  rw [pHeaders.eq_def]

theorem pHeaders_cr_more (n : Nat) : pHeaders n ['\r'] = .more := by
  rw [pHeaders.eq_def]
  rfl

theorem pHeaders_crlf (n : Nat) (t : List Char) :
    pHeaders n ('\r' :: '\n' :: t) = .done [] t := by
  rw [pHeaders.eq_def]
  rfl

theorem pHeaders_cons_eq (n : Nat) (c : Char) (cs : List Char) (hc : c ≠ '\r') :
    pHeaders (n + 1) (c :: cs) =
      (match pTok isTokChar ':' (c :: cs) with
       | .more => .more
       | .bad => .bad
       | .done name r1 =>
         match pValue r1 with
         | .more => .more
         | .bad => .bad
         | .done v r2 =>
           match pHeaders n r2 with
           | .done hs r3 => .done ((name, v) :: hs) r3
           | x => x) := by
  conv_lhs => rw [pHeaders.eq_def]
  simp [hc]

theorem pHeaders_complete :
    ∀ (hs : List (List Char × List Char)) (n : Nat) (t : List Char),
      hs.all wfHeader = true → hs.length ≤ n →
      pHeaders n (renderHeaders hs ++ '\r' :: '\n' :: t) = .done hs t := by
  intro hs
  induction hs with
  | nil =>
    intro n t _ _
    simpa [renderHeaders] using pHeaders_crlf n t
  | cons h hs' ih =>
    intro n t hwf hlen
    obtain ⟨nm, v⟩ := h
    simp only [List.all_cons, Bool.and_eq_true] at hwf
    obtain ⟨hwfh, hwf'⟩ := hwf
    simp only [wfHeader, Bool.and_eq_true] at hwfh
    obtain ⟨⟨⟨hne, htok⟩, hval⟩, hlws⟩ := hwfh
    simp only [List.length_cons] at hlen
    cases n with
    | zero => omega
    | succ n' =>
      cases hnm : nm with
      | nil => rw [hnm] at hne; simp at hne
      | cons c0 nm' =>
        rw [hnm] at htok
        have hc0 : isTokChar c0 = true := by
          simp only [List.all_cons, Bool.and_eq_true] at htok
          exact htok.1
        have hc0r : c0 ≠ '\r' := by
          intro he; rw [he] at hc0; exact absurd hc0 (by decide)
        have hin : renderHeaders ((c0 :: nm', v) :: hs') ++ '\r' :: '\n' :: t
            = c0 :: (nm' ++ ':' :: (v ++ '\r' :: '\n' :: (renderHeaders hs' ++ '\r' :: '\n' :: t))) := by
          simp [renderHeaders, renderHeader, List.append_assoc]
        rw [hin, pHeaders_cons_eq n' c0 _ hc0r]
        have htk : pTok isTokChar ':'
            (c0 :: (nm' ++ ':' :: (v ++ '\r' :: '\n' :: (renderHeaders hs' ++ '\r' :: '\n' :: t))))
            = .done (c0 :: nm') (v ++ '\r' :: '\n' :: (renderHeaders hs' ++ '\r' :: '\n' :: t)) := by
          have hx := @pTok_complete isTokChar ':' (c0 :: nm')
            (by decide) htok (by simp)
            (v ++ '\r' :: '\n' :: (renderHeaders hs' ++ '\r' :: '\n' :: t))
          simpa using hx
        have hvl := pValue_complete hval hlws (renderHeaders hs' ++ '\r' :: '\n' :: t)
        rw [htk]
        simp only [hvl, ih n' t hwf' (by omega)]

theorem pHeaders_prefix_more :
    ∀ (hs : List (List Char × List Char)) (n : Nat) (p q : List Char),
      hs.all wfHeader = true → hs.length ≤ n →
      p ++ q = renderHeaders hs ++ ['\r', '\n'] → q ≠ [] → pHeaders n p = .more := by
  intro hs
  induction hs with
  | nil =>
    intro n p q _ _ hpq hq
    simp only [renderHeaders, List.nil_append] at hpq
    cases p with
    | nil => exact pHeaders_nil_more n
    | cons c1 p1 =>
      cases p1 with
      | nil =>
        rw [List.cons_append, List.nil_append] at hpq
        have h1 := (List.cons.inj hpq).1
        rw [h1]
        exact pHeaders_cr_more n
      | cons c2 p2 =>
        rw [List.cons_append, List.cons_append] at hpq
        have h2 := (List.cons.inj (List.cons.inj hpq).2).2
        exact absurd (List.append_eq_nil.mp h2).2 hq
  | cons h hs' ih =>
    intro n p q hwf hlen hpq hq
    obtain ⟨nm, v⟩ := h
    simp only [List.all_cons, Bool.and_eq_true] at hwf
    obtain ⟨hwfh, hwf'⟩ := hwf
    simp only [wfHeader, Bool.and_eq_true] at hwfh
    obtain ⟨⟨⟨hne, htok⟩, hval⟩, hlws⟩ := hwfh
    simp only [List.length_cons] at hlen
    cases n with
    | zero => omega
    | succ n' =>
      have hren : renderHeaders ((nm, v) :: hs') ++ ['\r', '\n']
          = nm ++ ':' :: ((v ++ ['\r', '\n']) ++ (renderHeaders hs' ++ ['\r', '\n'])) := by
        simp [renderHeaders, renderHeader, List.append_assoc]
      rw [hren] at hpq
      rcases List.append_eq_append_iff.mp hpq with ⟨w, hw1, hw2⟩ | ⟨w, hw1, hw2⟩
      · -- p is a front part of the header name
        have hptok : p.all isTokChar = true := by
          rw [hw1, List.all_append, Bool.and_eq_true] at htok
          exact htok.1
        cases p with
        | nil => exact pHeaders_nil_more (n' + 1)
        | cons c0 p' =>
          have hc0 : isTokChar c0 = true := by
            simp only [List.all_cons, Bool.and_eq_true] at hptok
            exact hptok.1
          have hc0r : c0 ≠ '\r' := by
            intro he; rw [he] at hc0; exact absurd hc0 (by decide)
          rw [pHeaders_cons_eq n' c0 p' hc0r,
              pTok_all_more (by decide) hptok]
      · cases w with
        | nil =>
          -- p is exactly the header name, with the colon still missing
          rw [List.append_nil] at hw1
          cases hnm : nm with
          | nil => rw [hnm] at hne; simp at hne
          | cons c0 nm' =>
            rw [hnm] at htok hw1
            have hc0 : isTokChar c0 = true := by
              simp only [List.all_cons, Bool.and_eq_true] at htok
              exact htok.1
            have hc0r : c0 ≠ '\r' := by
              intro he; rw [he] at hc0; exact absurd hc0 (by decide)
            rw [hw1, pHeaders_cons_eq n' c0 nm' hc0r,
                pTok_all_more (by decide) htok]
        | cons e w1 =>
          rw [List.cons_append] at hw2
          have he : ':' = e := (List.cons.inj hw2).1
          have hrest : (v ++ ['\r', '\n']) ++ (renderHeaders hs' ++ ['\r', '\n']) = w1 ++ q :=
            (List.cons.inj hw2).2
          cases hnm : nm with
          | nil => rw [hnm] at hne; simp at hne
          | cons c0 nm' =>
            rw [hnm] at htok hw1
            have hc0 : isTokChar c0 = true := by
              simp only [List.all_cons, Bool.and_eq_true] at htok
              exact htok.1
            have hc0r : c0 ≠ '\r' := by
              intro he2; rw [he2] at hc0; exact absurd hc0 (by decide)
            have hp : p = c0 :: (nm' ++ ':' :: w1) := by
              rw [hw1, ← he]
              simp
            rw [hp, pHeaders_cons_eq n' c0 _ hc0r]
            have htk : pTok isTokChar ':' (c0 :: (nm' ++ ':' :: w1))
                = .done (c0 :: nm') w1 := by
              have hx := @pTok_complete isTokChar ':' (c0 :: nm')
                (by decide) htok (by simp) w1
              simpa using hx
            rw [htk]
            rcases List.append_eq_append_iff.mp hrest.symm with ⟨a, ha1, ha2⟩ | ⟨a, ha1, ha2⟩
            · -- w1 stops inside `value CRLF`
              cases a with
              | nil =>
                rw [List.append_nil] at ha1
                have hvl : pValue w1 = .done v [] := by
                  rw [← ha1]
                  have hx := pValue_complete hval hlws []
                  simpa using hx
                simp only [hvl, pHeaders_nil_more n']
              | cons e2 a2 =>
                simp only [pValue_prefix_more hval hlws w1 (e2 :: a2) ha1.symm (by simp)]
            · -- w1 covers `value CRLF` and part of the remaining headers
              have hvl : pValue w1 = .done v a := by
                rw [ha1]
                have hx := pValue_complete hval hlws a
                simpa [List.append_assoc] using hx
              simp only [hvl, ih n' a q hwf' (by omega) ha2.symm hq]

theorem ne_nil_of_not_isEmpty {l : List Char} (h : (!l.isEmpty) = true) : l ≠ [] := by
  cases l with
  | nil => simp at h
  | cons a as => exact List.cons_ne_nil a as

theorem httparseReq_complete (d : HeadDesc) (dig : Char) (t : List Char)
    (hwf : wfHead d = true) (hdig : dig = '1' ∨ dig = '0') :
    httparseReq (renderHeadV d ['1', '.', dig] ++ t)
      = .complete ⟨d.method, d.path, if dig = '1' then 1 else 0, d.headers⟩ t := by
  simp only [wfHead, Bool.and_eq_true, decide_eq_true_eq] at hwf
  obtain ⟨⟨⟨⟨⟨⟨hmne, hmtok⟩, hpne⟩, hptok⟩, hhwf⟩, hhlen⟩, hhost⟩ := hwf
  have hin : renderHeadV d ['1', '.', dig] ++ t
      = d.method ++ ' ' :: (d.path ++ ' ' ::
          (httpSlashOneDot ++ (dig :: ('\r' :: '\n' ::
            (renderHeaders d.headers ++ '\r' :: '\n' :: t))))) := by
    simp [renderHeadV, httpSlash, httpSlashOneDot, List.append_assoc]
  rw [hin]
  have e1 : pTok isTokChar ' '
      (d.method ++ ' ' :: (d.path ++ ' ' ::
          (httpSlashOneDot ++ (dig :: ('\r' :: '\n' ::
            (renderHeaders d.headers ++ '\r' :: '\n' :: t))))))
      = .done d.method (d.path ++ ' ' ::
          (httpSlashOneDot ++ (dig :: ('\r' :: '\n' ::
            (renderHeaders d.headers ++ '\r' :: '\n' :: t))))) :=
    pTok_complete (by decide) hmtok (ne_nil_of_not_isEmpty hmne) _
  have e2 : pTok isUriChar ' '
      (d.path ++ ' ' ::
          (httpSlashOneDot ++ (dig :: ('\r' :: '\n' ::
            (renderHeaders d.headers ++ '\r' :: '\n' :: t)))))
      = .done d.path
          (httpSlashOneDot ++ (dig :: ('\r' :: '\n' ::
            (renderHeaders d.headers ++ '\r' :: '\n' :: t)))) :=
    pTok_complete (by decide) hptok (ne_nil_of_not_isEmpty hpne) _
  have e3 : pLit httpSlashOneDot
      (httpSlashOneDot ++ (dig :: ('\r' :: '\n' ::
            (renderHeaders d.headers ++ '\r' :: '\n' :: t))))
      = .done () (dig :: ('\r' :: '\n' ::
            (renderHeaders d.headers ++ '\r' :: '\n' :: t))) :=
    pLit_complete httpSlashOneDot _
  have e4 : pLit ['\r', '\n']
      ('\r' :: '\n' :: (renderHeaders d.headers ++ '\r' :: '\n' :: t))
      = .done () (renderHeaders d.headers ++ '\r' :: '\n' :: t) :=
    pLit_complete ['\r', '\n'] _
  have e5 := pHeaders_complete d.headers 16 t hhwf hhlen
  rcases hdig with rfl | rfl
  · simp [httparseReq, e1, e2, e3, e4, e5]
  · simp [httparseReq, e1, e2, e3, e4, e5]

theorem httparseReq_more_of_tok {p : List Char} (h : p.all isTokChar = true) :
    httparseReq p = .incomplete := by
  simp only [httparseReq, pTok_all_more (by decide : isTokChar ' ' = false) h]

theorem httparseReq_prefix_more (d : HeadDesc) (p q : List Char)
    (hwf : wfHead d = true) (hpq : p ++ q = renderHead d) (hq : q ≠ []) :
    httparseReq p = .incomplete := by
  simp only [wfHead, Bool.and_eq_true, decide_eq_true_eq] at hwf
  obtain ⟨⟨⟨⟨⟨⟨hmne, hmtok⟩, hpne⟩, hptok⟩, hhwf⟩, hhlen⟩, hhost⟩ := hwf
  have hrn : renderHead d
      = d.method ++ ' ' :: (d.path ++ ' ' ::
          (httpSlashOneDot ++ ('1' :: '\r' :: '\n' ::
            (renderHeaders d.headers ++ ['\r', '\n'])))) := by
    simp [renderHead, renderHeadV, httpSlash, httpSlashOneDot, List.append_assoc]
  rw [hrn] at hpq
  rcases List.append_eq_append_iff.mp hpq with ⟨w, hw1, hw2⟩ | ⟨w, hw1, hw2⟩
  · -- p ends inside the method token
    have hptk : p.all isTokChar = true := by
      rw [hw1, List.all_append, Bool.and_eq_true] at hmtok
      exact hmtok.1
    exact httparseReq_more_of_tok hptk
  · cases w with
    | nil =>
      -- p is exactly the method, the space is missing
      rw [List.append_nil] at hw1
      rw [hw1]
      exact httparseReq_more_of_tok hmtok
    | cons e w1 =>
      rw [List.cons_append] at hw2
      have hsp : ' ' = e := (List.cons.inj hw2).1
      have hr1 : d.path ++ ' ' ::
          (httpSlashOneDot ++ ('1' :: '\r' :: '\n' ::
            (renderHeaders d.headers ++ ['\r', '\n']))) = w1 ++ q :=
        (List.cons.inj hw2).2
      have hp : p = d.method ++ ' ' :: w1 := by rw [hw1, ← hsp]
      have e1 : pTok isTokChar ' ' (d.method ++ ' ' :: w1) = .done d.method w1 :=
        pTok_complete (by decide) hmtok (ne_nil_of_not_isEmpty hmne) w1
      rcases List.append_eq_append_iff.mp hr1.symm with ⟨a, ha1, ha2⟩ | ⟨a, ha1, ha2⟩
      · -- w1 ends inside the path token
        have hw1uri : w1.all isUriChar = true := by
          rw [ha1, List.all_append, Bool.and_eq_true] at hptok
          exact hptok.1
        rw [hp]
        simp only [httparseReq, e1,
          pTok_all_more (by decide : isUriChar ' ' = false) hw1uri]
      · cases a with
        | nil =>
          -- w1 is exactly the path, the second space is missing
          rw [List.append_nil] at ha1
          rw [hp, ha1]
          simp only [httparseReq,
            @pTok_complete isTokChar ' ' d.method (by decide) hmtok
              (ne_nil_of_not_isEmpty hmne) d.path,
            pTok_all_more (by decide : isUriChar ' ' = false) hptok]
        | cons e2 w2 =>
          rw [List.cons_append] at ha2
          have hsp2 : ' ' = e2 := (List.cons.inj ha2).1
          have hr2 : httpSlashOneDot ++ ('1' :: '\r' :: '\n' ::
              (renderHeaders d.headers ++ ['\r', '\n'])) = w2 ++ q :=
            (List.cons.inj ha2).2
          have hp2 : p = d.method ++ ' ' :: (d.path ++ ' ' :: w2) := by
            rw [hp, ha1, ← hsp2]
          have e2' : pTok isUriChar ' ' (d.path ++ ' ' :: w2) = .done d.path w2 :=
            pTok_complete (by decide) hptok (ne_nil_of_not_isEmpty hpne) w2
          have e1' : pTok isTokChar ' ' (d.method ++ ' ' :: (d.path ++ ' ' :: w2))
              = .done d.method (d.path ++ ' ' :: w2) :=
            pTok_complete (by decide) hmtok (ne_nil_of_not_isEmpty hmne) _
          rcases List.append_eq_append_iff.mp hr2.symm with ⟨b, hb1, hb2⟩ | ⟨b, hb1, hb2⟩
          · -- w2 ends inside (or exactly at) the `HTTP/1.` literal
            cases b with
            | nil =>
              -- all of `HTTP/1.` present, version digit missing
              rw [List.append_nil] at hb1
              have e3 : pLit httpSlashOneDot w2 = .done () [] := by
                rw [← hb1]
                simpa using pLit_complete httpSlashOneDot []
              rw [hp2]
              simp only [httparseReq, e1', e2', e3]
            | cons b0 b1 =>
              have hlit : pLit httpSlashOneDot w2 = .more := by
                rw [hb1]
                exact pLit_prefix_more w2 (b0 :: b1) (by simp)
              rw [hp2]
              simp only [httparseReq, e1', e2', hlit]
          · -- w2 consumed `HTTP/1.` and possibly more
            have e3 : pLit httpSlashOneDot w2 = .done () b := by
              rw [hb1]
              exact pLit_complete httpSlashOneDot b
            cases b with
            | nil =>
              -- version digit missing
              rw [hp2]
              simp only [httparseReq, e1', e2', e3]
            | cons b0 b1 =>
              rw [List.cons_append] at hb2
              have hb0 : '1' = b0 := (List.cons.inj hb2).1
              have hr3 : '\r' :: '\n' :: (renderHeaders d.headers ++ ['\r', '\n'])
                  = b1 ++ q := (List.cons.inj hb2).2
              cases b1 with
              | nil =>
                -- CRLF after the version digit missing entirely
                rw [hp2]
                simp only [httparseReq, e1', e2', e3, ← hb0]
                rfl
              | cons b2 b3 =>
                rw [List.cons_append] at hr3
                have hb2' : '\r' = b2 := (List.cons.inj hr3).1
                have hr4 : '\n' :: (renderHeaders d.headers ++ ['\r', '\n'])
                    = b3 ++ q := (List.cons.inj hr3).2
                cases b3 with
                | nil =>
                  -- only the CR of the request-line CRLF present
                  rw [hp2]
                  simp only [httparseReq, e1', e2', e3, ← hb0, ← hb2']
                  rfl
                | cons b4 b5 =>
                  rw [List.cons_append] at hr4
                  have hb4 : '\n' = b4 := (List.cons.inj hr4).1
                  have hr5 : renderHeaders d.headers ++ ['\r', '\n'] = b5 ++ q :=
                    (List.cons.inj hr4).2
                  have e4 : pLit ['\r', '\n'] ('\r' :: '\n' :: b5) = .done () b5 :=
                    pLit_complete ['\r', '\n'] b5
                  have e5 : pHeaders 16 b5 = .more :=
                    pHeaders_prefix_more d.headers 16 b5 q hhwf hhlen hr5.symm hq
                  rw [hp2]
                  simp [httparseReq, e1', e2', e3, ← hb0, ← hb2', ← hb4, e4, e5]

theorem pLit_append (a b s : List Char) :
    pLit (a ++ b) s = (match pLit a s with
                       | .done _ r => pLit b r
                       | .more => .more
                       | .bad => .bad) := by
  induction a generalizing s with
  | nil => simp [pLit]
  | cons c a' ih =>
    cases s with
    | nil => rfl
    | cons x s' =>
      simp only [List.cons_append, pLit]
      by_cases hx : x = c
      · simp [hx, ih]
      · simp [hx]

theorem decode_version_err (d : HeadDesc) (v rest : List Char)
    (hwf : wfHead d = true) (hcr : noCRLF v = true) (hne : v ≠ ['1', '.', '1']) :
    Http.decode (renderHeadV d v ++ rest) = .ioErr := by
  have hwfK := hwf
  simp only [wfHead, Bool.and_eq_true, decide_eq_true_eq] at hwf
  obtain ⟨⟨⟨⟨⟨⟨hmne, hmtok⟩, hpne⟩, hptok⟩, hhwf⟩, hhlen⟩, hhost⟩ := hwf
  have hfail : ∀ s, httparseReq s = .failed → Http.decode s = .ioErr := by
    intro s h
    simp [Http.decode, h]
  have hin : renderHeadV d v ++ rest
      = d.method ++ ' ' :: (d.path ++ ' ' ::
          (httpSlash ++ (v ++ ('\r' :: '\n' ::
            (renderHeaders d.headers ++ '\r' :: '\n' :: rest))))) := by
    simp [renderHeadV, List.append_assoc]
  have e1 : pTok isTokChar ' '
      (d.method ++ ' ' :: (d.path ++ ' ' ::
          (httpSlash ++ (v ++ ('\r' :: '\n' ::
            (renderHeaders d.headers ++ '\r' :: '\n' :: rest))))))
      = .done d.method (d.path ++ ' ' ::
          (httpSlash ++ (v ++ ('\r' :: '\n' ::
            (renderHeaders d.headers ++ '\r' :: '\n' :: rest))))) :=
    pTok_complete (by decide) hmtok (ne_nil_of_not_isEmpty hmne) _
  have e2 : pTok isUriChar ' '
      (d.path ++ ' ' ::
          (httpSlash ++ (v ++ ('\r' :: '\n' ::
            (renderHeaders d.headers ++ '\r' :: '\n' :: rest)))))
      = .done d.path
          (httpSlash ++ (v ++ ('\r' :: '\n' ::
            (renderHeaders d.headers ++ '\r' :: '\n' :: rest)))) :=
    pTok_complete (by decide) hptok (ne_nil_of_not_isEmpty hpne) _
  have hl78 : ∀ X : List Char,
      pLit httpSlashOneDot (httpSlash ++ X) = pLit ['1', '.'] X := by
    intro X
    rw [show httpSlashOneDot = httpSlash ++ ['1', '.'] from rfl, pLit_append,
        pLit_complete]
  cases v with
  | nil =>
    refine hfail _ ?_
    rw [hin]
    have hlit : pLit httpSlashOneDot
        (httpSlash ++ ([] ++ ('\r' :: '\n' ::
          (renderHeaders d.headers ++ '\r' :: '\n' :: rest)))) = .bad := by
      rw [hl78]
      rfl
    simp only [httparseReq, e1, e2, hlit]
  | cons c v1 =>
    by_cases hc : c = '1'
    · subst hc
      cases v1 with
      | nil =>
        refine hfail _ ?_
        rw [hin]
        have hlit : pLit httpSlashOneDot
            (httpSlash ++ (['1'] ++ ('\r' :: '\n' ::
              (renderHeaders d.headers ++ '\r' :: '\n' :: rest)))) = .bad := by
          rw [hl78]
          rfl
        simp only [httparseReq, e1, e2, hlit]
      | cons c2 v2 =>
        by_cases hc2 : c2 = '.'
        · subst hc2
          cases v2 with
          | nil =>
            -- v = "1." : the version digit position holds CR
            refine hfail _ ?_
            rw [hin]
            have hlit : pLit httpSlashOneDot
                (httpSlash ++ (['1', '.'] ++ ('\r' :: '\n' ::
                  (renderHeaders d.headers ++ '\r' :: '\n' :: rest))))
                = .done () ('\r' :: '\n' ::
                  (renderHeaders d.headers ++ '\r' :: '\n' :: rest)) := by
              rw [hl78]
              simpa using pLit_complete ['1', '.']
                ('\r' :: '\n' :: (renderHeaders d.headers ++ '\r' :: '\n' :: rest))
            simp only [httparseReq, e1, e2, hlit]
            rfl
          | cons d0 v3 =>
            have hlit : pLit httpSlashOneDot
                (httpSlash ++ (('1' :: '.' :: d0 :: v3) ++ ('\r' :: '\n' ::
                  (renderHeaders d.headers ++ '\r' :: '\n' :: rest))))
                = .done () (d0 :: (v3 ++ ('\r' :: '\n' ::
                  (renderHeaders d.headers ++ '\r' :: '\n' :: rest)))) := by
              rw [hl78]
              simpa using pLit_complete ['1', '.']
                (d0 :: (v3 ++ ('\r' :: '\n' ::
                  (renderHeaders d.headers ++ '\r' :: '\n' :: rest))))
            by_cases hd1 : d0 = '1'
            · subst hd1
              cases v3 with
              | nil => exact absurd rfl hne
              | cons e v4 =>
                have he : e ≠ '\r' := by
                  have hm := List.all_eq_true.mp hcr e (by simp)
                  simp at hm
                  exact hm.1
                refine hfail _ ?_
                rw [hin]
                have hcrlf : pLit ['\r', '\n'] (e :: (v4 ++ ('\r' :: '\n' ::
                    (renderHeaders d.headers ++ '\r' :: '\n' :: rest)))) = .bad := by
                  simp [pLit, he]
                simp only [httparseReq, e1, e2, hlit]
                simp [hcrlf]
            · by_cases hd0 : d0 = '0'
              · subst hd0
                cases v3 with
                | nil =>
                  -- v = "1.0": the head parses, the decoder rejects the version
                  have hreq := httparseReq_complete d '0' rest hwfK (Or.inr rfl)
                  simp only [show (if '0' = '1' then 1 else 0) = 0 from rfl] at hreq
                  simp [Http.decode, hreq]
                | cons e v4 =>
                  have he : e ≠ '\r' := by
                    have hm := List.all_eq_true.mp hcr e (by simp)
                    simp at hm
                    exact hm.1
                  refine hfail _ ?_
                  rw [hin]
                  have hcrlf : pLit ['\r', '\n'] (e :: (v4 ++ ('\r' :: '\n' ::
                      (renderHeaders d.headers ++ '\r' :: '\n' :: rest)))) = .bad := by
                    simp [pLit, he]
                  simp only [httparseReq, e1, e2, hlit]
                  simp [hcrlf]
              · -- version digit is neither 1 nor 0
                refine hfail _ ?_
                rw [hin]
                simp only [httparseReq, e1, e2, hlit]
                simp [hd1, hd0]
        · -- second version character is not '.'
          refine hfail _ ?_
          rw [hin]
          have hlit : pLit httpSlashOneDot
              (httpSlash ++ (('1' :: c2 :: v2) ++ ('\r' :: '\n' ::
                (renderHeaders d.headers ++ '\r' :: '\n' :: rest)))) = .bad := by
            rw [hl78]
            simp [pLit, hc2]
          simp only [httparseReq, e1, e2, hlit]
    · -- first version character is not '1'
      refine hfail _ ?_
      rw [hin]
      have hlit : pLit httpSlashOneDot
          (httpSlash ++ ((c :: v1) ++ ('\r' :: '\n' ::
            (renderHeaders d.headers ++ '\r' :: '\n' :: rest)))) = .bad := by
        rw [hl78]
        simp [pLit, hc]
      simp only [httparseReq, e1, e2, hlit]

/-- C4 (corrected): a buffer holding a proper prefix of a request HEAD
decodes to `Ok(None)` with the buffer untouched; a complete head whose
version text after `HTTP/` is anything other than `1.1` (including
`1.0`, which parses but is rejected by the decoder's version check)
yields an `io::Error`; and a complete well-formed HTTP/1.1 head — token
method, at most 16 well-formed headers, and a `Host` header holding a
valid authority — decodes to `Ok(Some(request))`.  The unamended claim
quantified over prefixes of whole requests including bodies, which the
decoder does not frame (see the counterexample). -/
theorem http_decode_classify :
    (∀ (d : HeadDesc) (p q : List Char), wfHead d = true → p ++ q = renderHead d →
       q ≠ [] → Http.decode p = .ok none p) ∧
    (∀ (d : HeadDesc) (v rest : List Char), wfHead d = true → noCRLF v = true →
       v ≠ "1.1".toList → Http.decode (renderHeadV d v ++ rest) = .ioErr) ∧
    (∀ (d : HeadDesc) (rest : List Char), wfHead d = true →
       Http.decode (renderHead d ++ rest)
         = .ok (some ⟨d.method, d.path, 1, d.headers,
                      (findHost d.headers).getD [], rest⟩) []) := by
  refine ⟨?_, ?_, ?_⟩
  · intro d p q hwf hpq hq
    have h := httparseReq_prefix_more d p q hwf hpq hq
    simp [Http.decode, h]
  · intro d v rest hwf hcr hne
    exact decode_version_err d v rest hwf hcr hne
  · intro d rest hwf
    have hreq' : httparseReq (renderHead d ++ rest)
        = .complete ⟨d.method, d.path, 1, d.headers⟩ rest := by
      have hreq := httparseReq_complete d '1' rest hwf (Or.inl rfl)
      simpa using hreq
    simp only [wfHead, Bool.and_eq_true, decide_eq_true_eq] at hwf
    obtain ⟨⟨⟨⟨⟨⟨hmne, hmtok⟩, hpne⟩, hptok⟩, hhwf⟩, hhlen⟩, hhost⟩ := hwf
    cases hfh : findHost d.headers with
    | none => rw [hfh] at hhost; simp at hhost
    | some hv =>
      rw [hfh] at hhost
      simp only at hhost
      simp [Http.decode, hreq', hfh, hhost]

theorem http_decode_classify_witness :
    Http.decode (renderHead ⟨"GET".toList, "/".toList,
        [("Host".toList, "x".toList)]⟩ ++ [])
      = .ok (some ⟨"GET".toList, "/".toList, 1, [("Host".toList, "x".toList)],
             (findHost [("Host".toList, "x".toList)]).getD [], []⟩) [] :=
  http_decode_classify.2.2 ⟨"GET".toList, "/".toList, [("Host".toList, "x".toList)]⟩
    [] (by decide)

/-- C4 counterexample: the buffer below is a proper prefix of a complete
POST request (its body `abcde` is truncated to `ab`), yet the decoder —
which never frames bodies — returns a decoded request rather than
`Ok(None)`. -/
theorem http_prefix_cex :
    "POST / HTTP/1.1\r\nhost: a\r\ncontent-length: 5\r\n\r\nab".toList ++ "cde".toList
      = "POST / HTTP/1.1\r\nhost: a\r\ncontent-length: 5\r\n\r\nabcde".toList ∧
    "cde".toList ≠ ([] : List Char) ∧
    Http.decode "POST / HTTP/1.1\r\nhost: a\r\ncontent-length: 5\r\n\r\nab".toList
      ≠ .ok none "POST / HTTP/1.1\r\nhost: a\r\ncontent-length: 5\r\n\r\nab".toList ∧
    Http.decode "POST / HTTP/1.1\r\nhost: a\r\ncontent-length: 5\r\n\r\nab".toList
      = .ok (some ⟨"POST".toList, "/".toList, 1,
             [("host".toList, "a".toList), ("content-length".toList, "5".toList)],
             "a".toList, "ab".toList⟩) [] := by
  refine ⟨by decide, by decide, ?_, ?_⟩
  · decide
  · decide

/-- C3 (corrected): one decode call does return the first request's
head, but it consumes the entire buffer: every byte after the head —
including any pipelined following request — becomes the returned
request's body (`src.split_off(amt)`), and `src.clear()` leaves the
buffer empty, so a subsequent decode call sees an empty buffer and
returns no request. -/
theorem http_decode_consumes_all :
    (∀ (src : List Char) (req : DecodedRequest) (buf : List Char),
       Http.decode src = .ok (some req) buf →
       buf = [] ∧
       (match httparseReq src with
        | .complete _ rest => req.body = rest
        | _ => False)) ∧
    Http.decode ([] : List Char) = .ok none [] := by
  constructor
  · intro src req buf h
    unfold Http.decode at h
    cases hp : httparseReq src with
    | failed => rw [hp] at h; cases h
    | incomplete => rw [hp] at h; simp at h
    | complete r rest =>
      rw [hp] at h
      by_cases hm : r.minor ≠ 1
      · simp [hm] at h
      · simp only [hm, if_false] at h
        cases hfh : findHost r.headers with
        | none => rw [hfh] at h; cases h
        | some hv =>
          rw [hfh] at h
          by_cases ha : authorityOk hv = true
          · simp only [ha, if_true] at h
            injection h with h1 h2
            injection h1 with h3
            constructor
            · exact h2.symm
            · simp only [← h3]
          · simp [ha] at h
  · decide

theorem http_decode_consumes_all_witness :
    ([] : List Char) = [] ∧
    (match httparseReq "GET /a HTTP/1.1\r\nHost: x\r\n\r\nXY".toList with
     | .complete _ rest =>
         (⟨"GET".toList, "/a".toList, 1, [("Host".toList, "x".toList)],
           "x".toList, "XY".toList⟩ : DecodedRequest).body = rest
     | _ => False) :=
  http_decode_consumes_all.1 "GET /a HTTP/1.1\r\nHost: x\r\n\r\nXY".toList
    ⟨"GET".toList, "/a".toList, 1, [("Host".toList, "x".toList)],
      "x".toList, "XY".toList⟩ [] (by decide)

/-- C3 counterexample: a buffer holding two complete pipelined requests.
One decode call returns the first request, but the second request's
bytes are not left in the buffer — the buffer comes back empty (they
were swallowed into the first request's body), and the next decode call
returns nothing. -/
theorem http_pipeline_cex :
    Http.decode
        "GET /a HTTP/1.1\r\nHost: x\r\n\r\nGET /b HTTP/1.1\r\nHost: x\r\n\r\n".toList
      = .ok (some ⟨"GET".toList, "/a".toList, 1, [("Host".toList, "x".toList)],
             "x".toList, "GET /b HTTP/1.1\r\nHost: x\r\n\r\n".toList⟩) [] ∧
    ([] : List Char) ≠ "GET /b HTTP/1.1\r\nHost: x\r\n\r\n".toList ∧
    Http.decode ([] : List Char) = .ok none [] := by
  refine ⟨by decide, by decide, by decide⟩

end Tache
